import Mathlib

/-!
Verification of the waveform-effects pipeline of the Rust-SSTV repository:
the envelope generator (`src/envelope.rs`), the additive-noise injector
(`src/noise.rs`) and the delay/ghost ("retarder") mixer (`src/retarder.rs`),
shallowly embedded over an exact-arithmetic idealization of `f32`.

Idealization of `f32`: a sample value is either a finite rational number or
the undefined value `none` (IEEE NaN).  Rounding and overflow of `f32` are
idealized away (all finite arithmetic is exact).  The only divisions by zero
the program can perform are of the form `0.0 / 0.0`, which IEEE sends to NaN;
a division `x / 0.0` with `x ≠ 0` (IEEE infinity) occurs on no modelled path,
and the operations downstream of the one place it could conceivably appear
(sine, fract, ordered comparison) send infinities and NaN to the same
results, so both are collapsed into `none`.

Randomness is injected: the standard-normal draws consumed by the noise
injector and the uniform draws consumed by the `Rand` envelope are passed in
as explicit streams of (finite) rationals, as the design notes of the spec
themselves prescribe for testability.

The transcendental functions (`sin`, `sqrt`, `10^x`) have no exact rational
counterpart; they are modelled by computable stand-ins that agree with the
real functions in every property this development uses: `fsin` is a
truncated Taylor expansion of sine (exactly 0 at 0, finite on finite
arguments, NaN on NaN), `fsqrt` is a rational square-root approximation
(exactly 0 at 0, nonnegative on nonnegatives, NaN on negatives and NaN),
and `fpow10` is a positive rational approximation of `10^x` (positive and
finite on finite arguments).  No theorem below depends on their values
anywhere the stand-in differs from the real function.
-/

namespace SSTV

/-- Idealized `f32`: a finite rational, or `none` for NaN (see module header). -/
abbrev F := Option ℚ

/-- IEEE-style addition: NaN absorbs, finite addition is exact. -/
def fadd : F → F → F
  | some a, some b => some (a + b)
  | _, _ => none

/-- IEEE-style subtraction: NaN absorbs, finite subtraction is exact. -/
def fsub : F → F → F
  | some a, some b => some (a - b)
  | _, _ => none

/-- IEEE-style multiplication: NaN absorbs, finite multiplication is exact. -/
def fmul : F → F → F
  | some a, some b => some (a * b)
  | _, _ => none

/-- IEEE-style division: NaN absorbs; division by zero is undefined
(the program only ever performs `0/0`, see the module header). -/
def fdiv : F → F → F
  | some a, some b => if b = 0 then none else some (a / b)
  | _, _ => none

/-- Rust `f32::abs`: NaN propagates. -/
def fabs : F → F
  | some a => some |a|
  | none => none

/-- Rust `f32::clamp(-1.0, 1.0)`: NaN propagates, otherwise restrict to `[-1, 1]`. -/
def fclamp1 : F → F
  | some a => some (max (-1) (min 1 a))
  | none => none

/-- The comparison `v >= 0.0` on `f32`: false for NaN (IEEE ordered comparison). -/
def fge0 : F → Bool
  | some a => decide (0 ≤ a)
  | none => false

/-- Truncation toward zero of a rational, as Rust `f32::trunc` rounds. -/
def qtrunc (q : ℚ) : ℤ :=
  if q < 0 then ⌈q⌉ else ⌊q⌋

/-- Rust `f32::fract`, defined as `self - self.trunc()`: NaN propagates. -/
def ffract : F → F
  | some q => some (q - qtrunc q)
  | none => none

/-- The `f32` constant `std::f32::consts::PI` (bit pattern 0x40490FDB), exactly. -/
def pi32 : ℚ := 13176795 / 4194304

/-- Computable stand-in for `f32::sin` (truncated Taylor expansion).  It agrees
with real sine in the only properties used below: it is exactly 0 at 0, finite
on finite arguments, and NaN on NaN. -/
def fsin : F → F
  | some q => some (q - q ^ 3 / 6 + q ^ 5 / 120 - q ^ 7 / 5040)
  | none => none

/-- Computable stand-in for `f32::sqrt`: NaN on NaN and on negative arguments
(as IEEE square root), and on a nonnegative rational `q` a nonnegative rational
approximation of its square root that is exactly 0 at 0 — the only properties
used below. -/
def fsqrt : F → F
  | some q => if q < 0 then none else some ((Nat.sqrt (q.num.toNat * q.den) : ℚ) / (q.den : ℚ))
  | none => none

/-- Computable stand-in for `10f32.powf x`: NaN on NaN, and on a finite
argument a positive finite rational (`10` to the floor of the exponent) —
positivity and finiteness are the only properties used below. -/
def fpow10 : F → F
  | some q => some ((10 : ℚ) ^ ⌊q⌋)
  | none => none

/-- Rust `as usize` cast of an `f32`: NaN goes to 0, negative values saturate
at 0, finite values are truncated (saturation at `usize::MAX` idealized away). -/
def fToUsize : F → ℕ
  | some q => ⌊q⌋.toNat
  | none => 0

/-- The envelope kinds of `src/envelope.rs` (`EnvelopeKind`). -/
inductive EnvelopeKind
  | Const
  | Sin
  | Tri
  | Saw
  | Square
  | Rand
deriving DecidableEq, Repr

/-- `EnvelopeKind::factor` of `src/envelope.rs`: the weight for sample `idx`
at buffer length `len` and repeat factor `rep`.  `t = idx / (len - 1)` and
`x = t * rep` exactly as in the source (no special case for `len = 1`, where
the division is `0/0`).  `rnd` is the value the thread RNG would return for
the `Rand` kind at this call (randomness injected). -/
def EnvelopeKind.factor (k : EnvelopeKind) (rnd : ℚ) (idx len : ℕ) (rep : ℚ) : F :=
  let t : F := fdiv (some (idx : ℚ)) (fsub (some (len : ℚ)) (some 1))
  let x : F := fmul t (some rep)
  match k with
  | .Const => some 1
  | .Sin => fmul (some (1/2)) (fadd (some 1) (fsin (fmul (some (2 * pi32)) x)))
  | .Tri => fsub (some 1) (fabs (fsub (fmul (some 2) (ffract x)) (some 1)))
  | .Saw => ffract x
  | .Square => if fge0 (fsin (fmul (some (2 * pi32)) x)) then some 1 else some 0
  | .Rand => some rnd

/-- The triangle-wave formula exactly as the spec states it (§4.1):
`1 - |2·frac(x) - 1|`, with `frac` the fractional part.  Stated from the
spec's words, to be compared against the `Tri` branch of the source. -/
def specTri (x : ℚ) : ℚ := 1 - |2 * (x - ⌊x⌋) - 1|

/-- Map a function of the index and the element over a list, the index
starting at `i` — the shape of Rust's `iter().enumerate()` loops. -/
def enumMapFrom (f : ℕ → α → β) : ℕ → List α → List β
  | _, [] => []
  | i, a :: as => f i a :: enumMapFrom f (i + 1) as

/-- `enumMapFrom` with the index starting at 0, as `enumerate()` does. -/
def enumMap (f : ℕ → α → β) (l : List α) : List β :=
  enumMapFrom f 0 l

/-- `NoiseParams` of `src/noise.rs`: `level: u8`, envelope kind and repeat
factor (a finite `f32`). -/
structure NoiseParams where
  level : ℕ
  env : EnvelopeKind
  rep : ℚ
deriving DecidableEq, Repr

/-- `NoiseProcessor` of `src/noise.rs`: holds public, freely writable params. -/
structure NoiseProcessor where
  params : NoiseParams
deriving DecidableEq, Repr

/-- `NoiseProcessor::new_with_params`: stores the given params unchanged. -/
def NoiseProcessor.new_with_params (params : NoiseParams) : NoiseProcessor :=
  ⟨params⟩

/-- `NoiseProcessor::calculate_rms_signal`: `sqrt(sum(x²) / len)`.  On the
empty buffer this is `sqrt(0.0 / 0.0) = sqrt(NaN) = NaN`. -/
def calculate_rms_signal (samples : List ℚ) : F :=
  fsqrt (fdiv (some (samples.map (fun x => x * x)).sum) (some (samples.length : ℚ)))

/-- `NoiseProcessor::apply_noise` of `src/noise.rs`.  `z i` is the `i`-th
standard-normal draw of the thread RNG (always a finite float; the sampled
value of `Normal(0, sd)` is `sd * z i`), and `rnd i` the uniform draw the
`Rand` envelope would consume at index `i`.  The result is `none` when the
code terminates abruptly: `Normal::new(0.0, rms_noise).unwrap()` panics
when `rms_noise` is NaN (`rand_distr` rejects a non-finite standard
deviation), and `some` of the mutated buffer when the function returns `Ok`. -/
def NoiseProcessor.apply_noise (np : NoiseProcessor) (z rnd : ℕ → ℚ)
    (samples : List ℚ) : Option (List F) :=
  if np.params.level = 0 then some (samples.map some) else
  let len := samples.length
  let snr_db : ℚ := 30 * (1 - (np.params.level : ℚ) / 100) + 1/10
  let rms_sig : F := calculate_rms_signal samples
  let rms_noise : F := fdiv rms_sig (fpow10 (some (snr_db / 20)))
  match rms_noise with
  | none => none
  | some sd =>
      some (enumMap (fun i sample =>
        let env_factor := np.params.env.factor (rnd i) i len np.params.rep
        let noise_value := fmul (some (z i * sd)) env_factor
        fclamp1 (fadd (some sample) noise_value)) samples)

/-- `NoiseProcessor::set_level`: clamps to at most 100. -/
def NoiseProcessor.set_level (np : NoiseProcessor) (level : ℕ) : NoiseProcessor :=
  ⟨{ np.params with level := min level 100 }⟩

/-- `NoiseProcessor::set_repeat`: clamps to at least 0.1. -/
def NoiseProcessor.set_repeat (np : NoiseProcessor) (r : ℚ) : NoiseProcessor :=
  ⟨{ np.params with rep := max r (1/10) }⟩

/-- `RetarderParams` of `src/retarder.rs`: level and repeat are finite `f32`
values, `delay_ms` is a `u32`. -/
structure RetarderParams where
  level : ℚ
  env : EnvelopeKind
  rep : ℚ
  delay_ms : ℕ
deriving DecidableEq, Repr

/-- `RetarderProcessor` of `src/retarder.rs`: holds public, freely writable
params. -/
structure RetarderProcessor where
  params : RetarderParams
deriving DecidableEq, Repr

/-- `RetarderProcessor::new_with_params`: stores the given params unchanged. -/
def RetarderProcessor.new_with_params (params : RetarderParams) : RetarderProcessor :=
  ⟨params⟩

/-- `RetarderProcessor::get_delay_samples`: `(delay_ms / 1000 * 11025) as usize`. -/
def RetarderProcessor.get_delay_samples (rp : RetarderProcessor) : ℕ :=
  fToUsize (fmul (fdiv (some (rp.params.delay_ms : ℚ)) (some 1000)) (some 11025))

/-- `RetarderProcessor::apply_delay`: when `delay_ms > 0`, prepend
`(delay_ms / 1000 * 11025) as usize` zero samples to the ghost waveform. -/
def RetarderProcessor.apply_delay (rp : RetarderProcessor)
    (retarder_samples : List ℚ) : List ℚ :=
  if 0 < rp.params.delay_ms then
    let delay_samples := fToUsize (fmul (fdiv (some (rp.params.delay_ms : ℚ)) (some 1000)) (some 11025))
    if 0 < delay_samples then List.replicate delay_samples 0 ++ retarder_samples
    else retarder_samples
  else retarder_samples

/-- `RetarderProcessor::adjust_retarder_length`: right-pad the ghost waveform
with zeros up to the target length; a longer ghost is left untouched. -/
def adjust_retarder_length (retarder_samples : List ℚ) (target_length : ℕ) : List ℚ :=
  if retarder_samples.length < target_length then
    retarder_samples ++ List.replicate (target_length - retarder_samples.length) 0
  else retarder_samples

/-- `RetarderProcessor::mix_retarder` of `src/retarder.rs`.  For each index
`i` of the main buffer the ghost is read at `((i as f32) * repeat) as usize`
modulo its length, weighted by the clamped level and the envelope factor, and
the sum is clamped to `[-1, 1]`.  `none` models the panic of the `%` operator
when the ghost buffer is empty while the loop runs (a zero divisor on
`usize`); `rnd` feeds the `Rand` envelope. -/
def RetarderProcessor.mix_retarder (rp : RetarderProcessor) (rnd : ℕ → ℚ)
    (main_samples : List ℚ) (retarder_samples : List ℚ) : Option (List F) :=
  let level : ℚ := max 0 (min 1 rp.params.level)
  let main_len := main_samples.length
  let retarder_len := retarder_samples.length
  if main_samples ≠ [] ∧ retarder_len = 0 then none
  else
    some (enumMap (fun i sample =>
      let retarder_idx := fToUsize (fmul (some (i : ℚ)) (some rp.params.rep))
      let retarder_value := retarder_samples.getD (retarder_idx % retarder_len) 0
      let env_factor := rp.params.env.factor (rnd i) i main_len rp.params.rep
      fclamp1 (fadd (some sample) (fmul (fmul (some retarder_value) (some level)) env_factor)))
      main_samples)

/-- `RetarderProcessor::apply_retarder` of `src/retarder.rs`.  The external
MartinM1 encoder is a collaborator: `encoded` is the sample list it returns
for the ghost image (`encode_retarder_image` always returns `Ok`).  The
result is `some` of the mutated buffer on `Ok` and `none` on a panic. -/
def RetarderProcessor.apply_retarder (rp : RetarderProcessor) (rnd : ℕ → ℚ)
    (encoded : List ℚ) (samples : List ℚ) : Option (List F) :=
  if rp.params.level ≤ 0 then some (samples.map some)
  else
    let retarder_samples := rp.apply_delay encoded
    let retarder_samples := adjust_retarder_length retarder_samples samples.length
    rp.mix_retarder rnd samples retarder_samples

/-- `RetarderProcessor::set_level`: clamps to `[0, 1]`. -/
def RetarderProcessor.set_level (rp : RetarderProcessor) (level : ℚ) : RetarderProcessor :=
  ⟨{ rp.params with level := max 0 (min 1 level) }⟩

/-- `RetarderProcessor::set_repeat`: clamps to at least 0.1. -/
def RetarderProcessor.set_repeat (rp : RetarderProcessor) (r : ℚ) : RetarderProcessor :=
  ⟨{ rp.params with rep := max r (1/10) }⟩

/-- `RetarderProcessor::set_delay_ms`: stores the delay unchanged. -/
def RetarderProcessor.set_delay_ms (rp : RetarderProcessor) (delay_ms : ℕ) : RetarderProcessor :=
  ⟨{ rp.params with delay_ms := delay_ms }⟩



-- ### Helper lemmas

theorem enumMapFrom_length (f : ℕ → α → β) (i : ℕ) (l : List α) :
    (enumMapFrom f i l).length = l.length := by
  induction l generalizing i with
  | nil => rfl
  | cons a as ih => simp [enumMapFrom, ih]

theorem enumMapFrom_get? (f : ℕ → α → β) (i j : ℕ) (l : List α) :
    (enumMapFrom f i l).get? j = (l.get? j).map (f (i + j)) := by
  induction l generalizing i j with
  | nil => simp [enumMapFrom]
  | cons a as ih =>
    cases j with
    | zero => simp [enumMapFrom]
    | succ j =>
      have := ih (i + 1) j
      simpa [enumMapFrom, Nat.add_assoc, Nat.add_comm 1 j] using this

theorem enumMap_get? (f : ℕ → α → β) (j : ℕ) (l : List α) :
    (enumMap f l).get? j = (l.get? j).map (f j) := by
  simpa using enumMapFrom_get? f 0 j l

theorem mem_enumMapFrom {f : ℕ → α → β} {i : ℕ} {l : List α} {b : β}
    (h : b ∈ enumMapFrom f i l) : ∃ j a, l.get? j = some a ∧ b = f (i + j) a := by
  induction l generalizing i with
  | nil => simp [enumMapFrom] at h
  | cons a as ih =>
    simp only [enumMapFrom, List.mem_cons] at h
    rcases h with h | h
    · exact ⟨0, a, by simp, by simpa using h⟩
    · obtain ⟨j, c, hj, hb⟩ := ih h
      exact ⟨j + 1, c, by simpa using hj, by simpa [Nat.add_assoc, Nat.add_comm 1 j] using hb⟩

theorem mem_enumMap {f : ℕ → α → β} {l : List α} {b : β}
    (h : b ∈ enumMap f l) : ∃ j a, l.get? j = some a ∧ b = f j a := by
  obtain ⟨j, a, hj, hb⟩ := mem_enumMapFrom h
  exact ⟨j, a, hj, by simpa using hb⟩

theorem enumMapFrom_congr {f g : ℕ → α → β} (i : ℕ) (l : List α)
    (h : ∀ j a, f j a = g j a) : enumMapFrom f i l = enumMapFrom g i l := by
  induction l generalizing i with
  | nil => rfl
  | cons a as ih => simp [enumMapFrom, h, ih]

theorem enumMap_congr {f g : ℕ → α → β} (l : List α)
    (h : ∀ j a, f j a = g j a) : enumMap f l = enumMap g l :=
  enumMapFrom_congr 0 l h

theorem len_sub_one_ne_zero {len : ℕ} (h : 2 ≤ len) : (len : ℚ) - 1 ≠ 0 := by
  have h2 : (2 : ℚ) ≤ (len : ℚ) := by exact_mod_cast h
  linarith

theorem factor_isSome (k : EnvelopeKind) (rnd : ℚ) (idx len : ℕ) (rep : ℚ)
    (h : 2 ≤ len) : ∃ q, k.factor rnd idx len rep = some q := by
  have hne := len_sub_one_ne_zero h
  cases k
  all_goals simp [EnvelopeKind.factor, fdiv, fsub, fmul, fadd, fsin, ffract, fabs, fge0, hne]
  split <;> simp

theorem fclamp1_some_bounds (q : ℚ) :
    ∃ r, fclamp1 (some q) = some r ∧ -1 ≤ r ∧ r ≤ 1 := by
  refine ⟨max (-1) (min 1 q), rfl, le_max_left _ _, ?_⟩
  exact max_le (by norm_num) (min_le_left _ _)

theorem calculate_rms_signal_some {samples : List ℚ} (h : samples ≠ []) :
    ∃ q, calculate_rms_signal samples = some q ∧ 0 ≤ q := by
  have hpos : (0 : ℚ) < (samples.length : ℚ) := by
    exact_mod_cast List.length_pos.mpr h
  have hsum : 0 ≤ (samples.map (fun x => x * x)).sum :=
    List.sum_nonneg (by
      intro x hx
      obtain ⟨y, _, rfl⟩ := List.mem_map.mp hx
      exact mul_self_nonneg y)
  have hq : 0 ≤ (samples.map (fun x => x * x)).sum / (samples.length : ℚ) :=
    div_nonneg hsum (le_of_lt hpos)
  unfold calculate_rms_signal
  rw [show fdiv (some (samples.map (fun x => x * x)).sum) (some (samples.length : ℚ))
      = some ((samples.map (fun x => x * x)).sum / (samples.length : ℚ)) from by
    simp [fdiv, ne_of_gt hpos]]
  simp only [fsqrt, if_neg (not_lt.mpr hq)]
  exact ⟨_, rfl, div_nonneg (Nat.cast_nonneg _) (Nat.cast_nonneg _)⟩

theorem calculate_rms_signal_of_zero {samples : List ℚ} (h : samples ≠ [])
    (hz : ∀ x ∈ samples, x = 0) : calculate_rms_signal samples = some 0 := by
  have hpos : (0 : ℚ) < (samples.length : ℚ) := by
    exact_mod_cast List.length_pos.mpr h
  have hsum : (samples.map (fun x => x * x)).sum = 0 :=
    List.sum_eq_zero (by
      intro x hx
      obtain ⟨y, hy, rfl⟩ := List.mem_map.mp hx
      simp [hz y hy])
  simp only [calculate_rms_signal, hsum, fdiv, if_neg (ne_of_gt hpos), zero_div]
  norm_num [fsqrt]

theorem enumMap_eq_map (f : ℕ → α → β) (g : α → β) (l : List α)
    (h : ∀ j a, l.get? j = some a → f j a = g a) : enumMap f l = l.map g := by
  apply List.ext_get?
  intro j
  rw [enumMap_get?, List.get?_map]
  cases hj : l.get? j with
  | none => rfl
  | some a => simp [h j a hj]

theorem apply_noise_shape (np : NoiseProcessor) (z rnd : ℕ → ℚ) (samples : List ℚ)
    (h0 : np.params.level ≠ 0) (h1 : samples ≠ []) :
    ∃ sd : ℚ, 0 ≤ sd ∧
      np.apply_noise z rnd samples = some (enumMap (fun i sample =>
        fclamp1 (fadd (some sample) (fmul (some (z i * sd))
          (np.params.env.factor (rnd i) i samples.length np.params.rep)))) samples) := by
  obtain ⟨q, hq, hq0⟩ := calculate_rms_signal_some h1
  have hpow : (0 : ℚ) < 10 ^ ⌊(30 * (1 - (np.params.level : ℚ) / 100) + 1/10) / 20⌋ :=
    zpow_pos (by norm_num) _
  refine ⟨q / 10 ^ ⌊(30 * (1 - (np.params.level : ℚ) / 100) + 1/10) / 20⌋,
    div_nonneg hq0 (le_of_lt hpow), ?_⟩
  unfold NoiseProcessor.apply_noise
  rw [if_neg h0]
  simp only [hq, fpow10, fdiv, if_neg (ne_of_gt hpow)]

theorem mix_retarder_shape (rp : RetarderProcessor) (rnd : ℕ → ℚ) (main rs : List ℚ)
    (h : main ≠ [] → rs.length ≠ 0) :
    rp.mix_retarder rnd main rs = some (enumMap (fun i sample =>
      fclamp1 (fadd (some sample)
        (fmul (fmul (some (rs.getD (fToUsize (fmul (some (i : ℚ)) (some rp.params.rep)) % rs.length) 0))
          (some (max 0 (min 1 rp.params.level))))
          (rp.params.env.factor (rnd i) i main.length rp.params.rep)))) main) := by
  unfold RetarderProcessor.mix_retarder
  rw [if_neg (by
    rintro ⟨hm, hr⟩
    exact h hm hr)]

theorem apply_retarder_pos (rp : RetarderProcessor) (rnd : ℕ → ℚ) (enc samples : List ℚ)
    (h0 : 0 < rp.params.level) :
    rp.apply_retarder rnd enc samples
      = rp.mix_retarder rnd samples (adjust_retarder_length (rp.apply_delay enc) samples.length) := by
  unfold RetarderProcessor.apply_retarder
  rw [if_neg (not_le.mpr h0)]

theorem apply_delay_eq (rp : RetarderProcessor) (enc : List ℚ) :
    rp.apply_delay enc
      = List.replicate (⌊(rp.params.delay_ms : ℚ) / 1000 * 11025⌋.toNat) 0 ++ enc := by
  unfold RetarderProcessor.apply_delay
  by_cases hd : 0 < rp.params.delay_ms
  · rw [if_pos hd]
    have hDeq : fToUsize (fmul (fdiv (some (rp.params.delay_ms : ℚ)) (some 1000)) (some 11025))
        = ⌊(rp.params.delay_ms : ℚ) / 1000 * 11025⌋.toNat := by
      norm_num [fToUsize, fdiv, fmul]
    rw [hDeq]
    by_cases hDp : 0 < ⌊(rp.params.delay_ms : ℚ) / 1000 * 11025⌋.toNat
    · rw [if_pos hDp]
    · rw [if_neg hDp]
      have h0 : ⌊(rp.params.delay_ms : ℚ) / 1000 * 11025⌋.toNat = 0 := by omega
      rw [h0]
      simp
  · rw [if_neg hd]
    have h0 : rp.params.delay_ms = 0 := by omega
    simp [h0]

theorem le_length_adjust (rs : List ℚ) (n : ℕ) : n ≤ (adjust_retarder_length rs n).length := by
  unfold adjust_retarder_length
  split
  · simp only [List.length_append, List.length_replicate]
    omega
  · omega

theorem adjust_get?_of_lt (rs : List ℚ) (n : ℕ) {i : ℕ} (hi : i < rs.length) :
    (adjust_retarder_length rs n).get? i = rs.get? i := by
  unfold adjust_retarder_length
  split
  · exact List.get?_append hi
  · rfl

theorem floor_mul_le_self (i : ℕ) (rep : ℚ) (h1 : rep ≤ 1) :
    ⌊(i : ℚ) * rep⌋.toNat ≤ i := by
  have hle : (i : ℚ) * rep ≤ (i : ℚ) :=
    mul_le_of_le_one_right (Nat.cast_nonneg i) h1
  have hf : ⌊(i : ℚ) * rep⌋ ≤ ⌊(i : ℚ)⌋ := Int.floor_le_floor hle
  have hn : ⌊(i : ℚ)⌋ = (i : ℤ) := Int.floor_natCast i
  omega

theorem get?_replicate_append {D i : ℕ} (h : i < D) (enc : List ℚ) :
    (List.replicate D (0 : ℚ) ++ enc).get? i = some 0 := by
  rw [List.get?_append (by simpa using h)]
  simp [List.get?_eq_getElem?, h]

theorem length_le_adjust (rs : List ℚ) (n : ℕ) :
    rs.length ≤ (adjust_retarder_length rs n).length := by
  unfold adjust_retarder_length
  split
  · simp only [List.length_append, List.length_replicate]
    omega
  · omega

theorem getD_of_get? {l : List ℚ} {i : ℕ} {a : ℚ} (h : l.get? i = some a) :
    l.getD i 0 = a := by
  unfold List.getD
  rw [List.get?_eq_getElem?] at h
  simp [h]

-- ### The claims

/-- C1.  The claim says `apply_noise` never terminates abruptly, in particular
not on an empty buffer.  The code violates this: on an empty buffer with a
nonzero level, `calculate_rms_signal` computes `sqrt(0.0/0.0) = NaN`, so
`Normal::new(0.0, NaN)` returns an error and the `.unwrap()` panics — the
model returns `none` (abrupt termination), not a typed failure. -/
theorem C1_apply_noise_empty_buffer_panics (z rnd : ℕ → ℚ) :
    NoiseProcessor.apply_noise ⟨⟨50, .Const, 1⟩⟩ z rnd [] = none := by
  norm_num [NoiseProcessor.apply_noise, calculate_rms_signal, fdiv, fsqrt, fpow10, fmul, fadd]

/-- C2, counterexample.  At index 0, length 2, repeat 1.0 the `Tri` envelope
factor is 0.0 (as the spec's own formula `1 - |2·frac(0) - 1| = 0` demands),
not the claimed 1.0. -/
theorem C2_tri_at_index_zero_counterexample :
    EnvelopeKind.factor .Tri 0 0 2 1 = some 0 ∧
    EnvelopeKind.factor .Tri 0 0 2 1 ≠ some 1 := by
  have h1 : EnvelopeKind.factor .Tri 0 0 2 1 = some 0 := by
    norm_num [EnvelopeKind.factor, fdiv, fsub, fmul, fadd, ffract, fabs, qtrunc]
  refine ⟨h1, ?_⟩
  rw [h1]
  simp

/-- C2, amended.  At index 0 for any length ≥ 2 and repeat 1.0 the envelope
factors are: `Const → 1.0`, `Sin → 0.5`, `Tri → 0.0` (not 1.0), `Saw → 0.0`,
`Square → 1.0`; the `Tri` value agrees with the spec's own formula
`1 - |2·frac(x) - 1|` at `x = 0`, which gives 0. -/
theorem C2_envelope_at_index_zero (len : ℕ) (h : 2 ≤ len) (rnd : ℚ) :
    EnvelopeKind.factor .Const rnd 0 len 1 = some 1 ∧
    EnvelopeKind.factor .Sin rnd 0 len 1 = some (1/2) ∧
    EnvelopeKind.factor .Tri rnd 0 len 1 = some 0 ∧
    EnvelopeKind.factor .Saw rnd 0 len 1 = some 0 ∧
    EnvelopeKind.factor .Square rnd 0 len 1 = some 1 ∧
    EnvelopeKind.factor .Tri rnd 0 len 1 = some (specTri 0) := by
  have hne := len_sub_one_ne_zero h
  refine ⟨?_, ?_, ?_, ?_, ?_, ?_⟩ <;>
    norm_num [EnvelopeKind.factor, fdiv, fsub, fmul, fadd, fsin, ffract, fabs, fge0,
      qtrunc, pi32, specTri, hne]

/-- C2, witness for the amended claim at length 2. -/
theorem C2_envelope_at_index_zero_witness :
    EnvelopeKind.factor .Const 0 0 2 1 = some 1 ∧
    EnvelopeKind.factor .Sin 0 0 2 1 = some (1/2) ∧
    EnvelopeKind.factor .Tri 0 0 2 1 = some 0 ∧
    EnvelopeKind.factor .Saw 0 0 2 1 = some 0 ∧
    EnvelopeKind.factor .Square 0 0 2 1 = some 1 ∧
    EnvelopeKind.factor .Tri 0 0 2 1 = some (specTri 0) :=
  C2_envelope_at_index_zero 2 (by norm_num) 0

/-- C3, counterexample.  An empty ghost waveform (empty encode result) is not
rejected: with level 1 the call succeeds (`some`, i.e. `Ok`), the zero padding
supplied by the length-adjustment step is mixed in, and the primary signal is
returned (unchanged, since the padding is silence).  No configuration error
exists in the code. -/
theorem C3_empty_ghost_not_rejected :
    RetarderProcessor.apply_retarder ⟨⟨1, .Const, 1, 0⟩⟩ (fun _ => 0) [] [7/10]
      = some [some (7/10)] := by
  norm_num [RetarderProcessor.apply_retarder, RetarderProcessor.apply_delay,
    adjust_retarder_length, RetarderProcessor.mix_retarder, enumMap, enumMapFrom,
    EnvelopeKind.factor, fdiv, fsub, fmul, fadd, fclamp1, fToUsize, Int.toNat,
    List.getElem?_cons_succ, List.getElem?_cons_zero, List.replicate]

/-- C3, amended.  `apply_retarder` performs no upfront rejection of an empty
ghost waveform; it always returns successfully: the length-adjustment step
zero-pads the ghost to the primary length, so the modulo divisor is nonzero
whenever the mix loop runs, and the loop is empty when the primary is empty. -/
theorem C3_apply_retarder_never_fails (rp : RetarderProcessor) (rnd : ℕ → ℚ)
    (encoded samples : List ℚ) :
    ∃ out, rp.apply_retarder rnd encoded samples = some out := by
  by_cases h0 : rp.params.level ≤ 0
  · refine ⟨samples.map some, ?_⟩
    unfold RetarderProcessor.apply_retarder
    rw [if_pos h0]
  · push_neg at h0
    rw [apply_retarder_pos rp rnd encoded samples h0]
    rw [mix_retarder_shape rp rnd samples _ (fun hm => by
      have h1 := le_length_adjust (rp.apply_delay encoded) samples.length
      have h2 : 0 < samples.length := List.length_pos.mpr hm
      omega)]
    exact ⟨_, rfl⟩

/-- C4.  The claim says a length-1 buffer is special-cased to `t = 0` and
never yields NaN.  The code has no special case: `t = 0/0 = NaN` propagates,
so `Sin`, `Tri` and `Saw` return NaN, and `Square` returns 0.0 (the NaN
comparison is false) instead of the value 1.0 it would have at `t = 0`. -/
theorem C4_envelope_len1_nan (rnd rep : ℚ) :
    EnvelopeKind.factor .Sin rnd 0 1 rep = none ∧
    EnvelopeKind.factor .Tri rnd 0 1 rep = none ∧
    EnvelopeKind.factor .Saw rnd 0 1 rep = none ∧
    EnvelopeKind.factor .Square rnd 0 1 rep = some 0 := by
  norm_num [EnvelopeKind.factor, fdiv, fsub, fmul, fadd, fsin, ffract, fabs, fge0]


/-- C5.  The retarder mixing step: for every index `i` of the primary signal
the ghost sample is read at `floor(i * repeat) mod length` of the delayed,
length-adjusted ghost (a longer ghost is not truncated, a shorter one is
zero-padded by `adjust_retarder_length`), and the sample becomes
`clamp(signal[i] + ghost * level * envelope, -1, 1)`; and concretely, the
ghost `[0.1, 0.2, 0.3, 0.4, 0.5]` at repeat 1.0, level 1.0, `Const` envelope,
no delay, mixed into a 5-sample zero primary, yields exactly the ghost. -/
theorem C5_mix_formula :
    (∀ (p : RetarderParams) (rnd : ℕ → ℚ) (enc s : List ℚ),
        0 < p.level → p.level ≤ 1 →
        RetarderProcessor.apply_retarder ⟨p⟩ rnd enc s
          = some (enumMap (fun i a =>
              fclamp1 (fadd (some a)
                (fmul (fmul (some ((adjust_retarder_length (RetarderProcessor.apply_delay ⟨p⟩ enc) s.length).getD
                    (⌊(i : ℚ) * p.rep⌋.toNat
                      % (adjust_retarder_length (RetarderProcessor.apply_delay ⟨p⟩ enc) s.length).length) 0))
                  (some p.level))
                  (p.env.factor (rnd i) i s.length p.rep)))) s)) ∧
    RetarderProcessor.apply_retarder ⟨⟨1, .Const, 1, 0⟩⟩ (fun _ => 0)
      [1/10, 2/10, 3/10, 4/10, 5/10] [0, 0, 0, 0, 0]
      = some [some (1/10), some (2/10), some (3/10), some (4/10), some (5/10)] := by
  constructor
  · intro p rnd enc s h0 h1
    have hlvl : max 0 (min 1 p.level) = p.level := by
      rw [min_eq_right h1, max_eq_right (le_of_lt h0)]
    rw [apply_retarder_pos ⟨p⟩ rnd enc s h0,
      mix_retarder_shape ⟨p⟩ rnd s _ (fun hm => by
        have h2 := le_length_adjust ((⟨p⟩ : RetarderProcessor).apply_delay enc) s.length
        have h3 : 0 < s.length := List.length_pos.mpr hm
        omega)]
    congr 1
    apply enumMap_congr
    intro i a
    simp [fToUsize, fmul, hlvl]
  · norm_num [RetarderProcessor.apply_retarder, RetarderProcessor.apply_delay,
      adjust_retarder_length, RetarderProcessor.mix_retarder, enumMap, enumMapFrom,
      EnvelopeKind.factor, fdiv, fsub, fmul, fadd, fclamp1, fToUsize, Int.toNat,
      List.getElem?_cons_succ, List.getElem?_cons_zero]

/-- C5, witness: the general mix formula applied to the concrete scenario
yields a successful result. -/
theorem C5_mix_formula_witness :
    (RetarderProcessor.apply_retarder ⟨⟨1, .Const, 1, 0⟩⟩ (fun _ => 0)
      [1/10, 2/10, 3/10, 4/10, 5/10] [0, 0, 0, 0, 0]).isSome = true := by
  rw [C5_mix_formula.1 ⟨1, .Const, 1, 0⟩ (fun _ => 0) [1/10, 2/10, 3/10, 4/10, 5/10]
    [0, 0, 0, 0, 0] (by norm_num) (by norm_num)]
  rfl

/-- C6, counterexample.  An all-zero signal of length 1 with the `Sin`-family
envelope does give standard deviation 0 and succeed, but the output sample is
NaN (the length-1 envelope factor is NaN and `0 * NaN = NaN`), not 0.0. -/
theorem C6_zero_signal_len1_counterexample :
    NoiseProcessor.apply_noise ⟨⟨50, .Tri, 1⟩⟩ (fun _ => 0) (fun _ => 0) [0] = some [none] ∧
    (none : F) ≠ some (0 : ℚ) := by
  constructor
  · norm_num [NoiseProcessor.apply_noise, calculate_rms_signal, fdiv, fsqrt, fpow10, fmul, fadd,
      enumMap, enumMapFrom, EnvelopeKind.factor, fsub, ffract, fabs, fclamp1, qtrunc]
  · simp

/-- C6, amended.  For every all-zero signal of length ≥ 2 and every nonzero
noise level, `apply_noise` treats the standard deviation 0 as degenerate but
valid: it succeeds and every output sample remains exactly 0.0. -/
theorem C6_zero_signal_injects_zero (np : NoiseProcessor) (z rnd : ℕ → ℚ) (s : List ℚ)
    (h0 : 0 < np.params.level) (hlen : 2 ≤ s.length) (hz : ∀ x ∈ s, x = 0) :
    np.apply_noise z rnd s = some (s.map (fun _ => some (0 : ℚ))) := by
  have hne : s ≠ [] := by
    intro h
    rw [h] at hlen
    simp at hlen
  have hrms := calculate_rms_signal_of_zero hne hz
  have hp : ((10 : ℚ) ^ ⌊(30 * (1 - (np.params.level : ℚ) / 100) + 1/10) / 20⌋) ≠ 0 :=
    ne_of_gt (zpow_pos (by norm_num) _)
  unfold NoiseProcessor.apply_noise
  rw [if_neg (Nat.pos_iff_ne_zero.mp h0)]
  simp only [hrms, fpow10, fdiv, if_neg hp, zero_div, mul_zero]
  congr 1
  apply enumMap_eq_map
  intro j a hj
  have ha : a = 0 := hz a (List.get?_mem hj)
  obtain ⟨e, he⟩ := factor_isSome np.params.env (rnd j) j s.length np.params.rep hlen
  rw [he, ha]
  norm_num [fmul, fadd, fclamp1]

/-- C6, witness: a 2-sample zero signal at level 50 stays exactly zero. -/
theorem C6_zero_signal_injects_zero_witness :
    NoiseProcessor.apply_noise ⟨⟨50, .Const, 1⟩⟩ (fun _ => 0) (fun _ => 0) [0, 0]
      = some [some 0, some 0] := by
  have h := C6_zero_signal_injects_zero ⟨⟨50, .Const, 1⟩⟩ (fun _ => 0) (fun _ => 0) [0, 0]
    (by norm_num) (by norm_num) (by
      intro x hx
      rcases List.mem_cons.mp hx with h1 | h1
      · exact h1
      · simpa using h1)
  simpa using h

/-- C7, counterexample.  `new_with_params` stores params unchanged, so a
repeat of 0.01, a noise level of 255 and a retarder level of 2.5 all survive
construction, violating the claimed always-invariants. -/
theorem C7_new_with_params_unclamped :
    (RetarderProcessor.new_with_params ⟨3/10, .Const, 1/100, 0⟩).params.rep < 1/10 ∧
    100 < (NoiseProcessor.new_with_params ⟨255, .Const, 1⟩).params.level ∧
    1 < (RetarderProcessor.new_with_params ⟨5/2, .Const, 1, 0⟩).params.level := by
  norm_num [RetarderProcessor.new_with_params, NoiseProcessor.new_with_params]

/-- C7, amended.  The invariants hold for values written through the setters
(which clamp): noise `set_level` yields level ≤ 100, both `set_repeat`s yield
repeat ≥ 0.1, and retarder `set_level` yields level in `[0, 1]`;
`new_with_params` and direct field writes bypass the clamping. -/
theorem C7_setters_clamp :
    (∀ (np : NoiseProcessor) (l : ℕ), (np.set_level l).params.level ≤ 100) ∧
    (∀ (np : NoiseProcessor) (r : ℚ), 1/10 ≤ (np.set_repeat r).params.rep) ∧
    (∀ (rp : RetarderProcessor) (l : ℚ),
      0 ≤ (rp.set_level l).params.level ∧ (rp.set_level l).params.level ≤ 1) ∧
    (∀ (rp : RetarderProcessor) (r : ℚ), 1/10 ≤ (rp.set_repeat r).params.rep) := by
  refine ⟨?_, ?_, ?_, ?_⟩
  · intro np l
    simp [NoiseProcessor.set_level]
  · intro np r
    simp [NoiseProcessor.set_repeat]
  · intro rp l
    constructor
    · simp [RetarderProcessor.set_level]
    · simp only [RetarderProcessor.set_level]
      exact max_le (by norm_num) (min_le_left 1 l)
  · intro rp r
    simp [RetarderProcessor.set_repeat]


/-- C8, counterexample.  A length-1 signal with the `Sin` envelope and level
50 produces a NaN output sample (not a value in `[-1, 1]`), because the
length-1 envelope factor is NaN; and with level 0 an out-of-range input
sample (5.0) is returned unchanged, since the identity branch re-clamps
nothing. -/
theorem C8_clamp_counterexample :
    (NoiseProcessor.apply_noise ⟨⟨50, .Sin, 1⟩⟩ (fun _ => 0) (fun _ => 0) [0] = some [none] ∧
      ∀ q : ℚ, (none : F) ≠ some q) ∧
    (NoiseProcessor.apply_noise ⟨⟨0, .Const, 1⟩⟩ (fun _ => 0) (fun _ => 0) [5] = some [some 5] ∧
      ¬((5 : ℚ) ≤ 1)) := by
  refine ⟨⟨?_, by simp⟩, ⟨?_, by norm_num⟩⟩
  · norm_num [NoiseProcessor.apply_noise, calculate_rms_signal, fdiv, fsqrt, fpow10, fmul, fadd,
      fsub, enumMap, enumMapFrom, EnvelopeKind.factor, fsin, fclamp1, pi32]
  · norm_num [NoiseProcessor.apply_noise]

/-- C8, amended.  For every input signal of length ≥ 2 whose samples lie in
`[-1, 1]` (the nominal signal range of the data model), after `apply_noise`
or `apply_retarder` returns successfully every output sample is a number in
`[-1, 1]`. -/
theorem C8_outputs_in_unit_interval (s : List ℚ) (hb : ∀ a ∈ s, -1 ≤ a ∧ a ≤ 1)
    (hlen : 2 ≤ s.length) :
    (∀ (np : NoiseProcessor) (z rnd : ℕ → ℚ) (out : List F),
        np.apply_noise z rnd s = some out →
        ∀ x ∈ out, ∃ q, x = some q ∧ -1 ≤ q ∧ q ≤ 1) ∧
    (∀ (rp : RetarderProcessor) (rnd : ℕ → ℚ) (enc : List ℚ) (out : List F),
        rp.apply_retarder rnd enc s = some out →
        ∀ x ∈ out, ∃ q, x = some q ∧ -1 ≤ q ∧ q ≤ 1) := by
  have hne : s ≠ [] := by
    intro h
    rw [h] at hlen
    simp at hlen
  constructor
  · intro np z rnd out hout x hx
    by_cases h0 : np.params.level = 0
    · unfold NoiseProcessor.apply_noise at hout
      rw [if_pos h0] at hout
      obtain rfl := Option.some.inj hout
      obtain ⟨a, ha, rfl⟩ := List.mem_map.mp hx
      exact ⟨a, rfl, (hb a ha).1, (hb a ha).2⟩
    · obtain ⟨sd, _, hsh⟩ := apply_noise_shape np z rnd s h0 hne
      rw [hsh] at hout
      obtain rfl := Option.some.inj hout
      obtain ⟨j, a, hj, rfl⟩ := mem_enumMap hx
      obtain ⟨e, he⟩ := factor_isSome np.params.env (rnd j) j s.length np.params.rep hlen
      rw [he]
      simp only [fmul, fadd]
      exact fclamp1_some_bounds _
  · intro rp rnd enc out hout x hx
    by_cases h0 : rp.params.level ≤ 0
    · unfold RetarderProcessor.apply_retarder at hout
      rw [if_pos h0] at hout
      obtain rfl := Option.some.inj hout
      obtain ⟨a, ha, rfl⟩ := List.mem_map.mp hx
      exact ⟨a, rfl, (hb a ha).1, (hb a ha).2⟩
    · push_neg at h0
      rw [apply_retarder_pos rp rnd enc s h0,
        mix_retarder_shape rp rnd s _ (fun hm => by
          have h2 := le_length_adjust (rp.apply_delay enc) s.length
          have h3 : 0 < s.length := List.length_pos.mpr hm
          omega)] at hout
      obtain rfl := Option.some.inj hout
      obtain ⟨j, a, hj, rfl⟩ := mem_enumMap hx
      obtain ⟨e, he⟩ := factor_isSome rp.params.env (rnd j) j s.length rp.params.rep hlen
      rw [he]
      simp only [fmul, fadd]
      exact fclamp1_some_bounds _

/-- C8, witness: the amended claim applied to the 2-sample zero signal with
level-50 noise shows its outputs are numbers in `[-1, 1]`. -/
theorem C8_outputs_in_unit_interval_witness :
    ∃ q, (some (0 : ℚ) : F) = some q ∧ -1 ≤ q ∧ q ≤ 1 := by
  refine (C8_outputs_in_unit_interval [0, 0] (by norm_num) (by norm_num)).1
    ⟨⟨50, .Const, 1⟩⟩ (fun _ => 0) (fun _ => 0) [some 0, some 0] ?_ (some 0) (by simp)
  norm_num [NoiseProcessor.apply_noise, calculate_rms_signal, fdiv, fsqrt, fpow10, fmul, fadd,
    enumMap, enumMapFrom, EnvelopeKind.factor, fsub, fclamp1]

set_option maxHeartbeats 1000000 in
/-- C9, counterexample.  With a 1 ms delay the code prepends
`floor(1/1000 * 11025) = 11` zeros, but at repeat 11 the mix at index
`1 < 11` strides past the prepended silence (`floor(1 * 11) = 11`) and reads
the nonzero ghost sample 0.5: the claimed zero-contribution property fails
for repeat factors above 1. -/
theorem C9_padding_counterexample :
    RetarderProcessor.apply_retarder ⟨⟨1, .Const, 11, 1⟩⟩ (fun _ => 0) [1/2] [0, 0]
      = some [some 0, some (1/2)] ∧
    (1 : ℕ) < ⌊(1 : ℚ) / 1000 * 11025⌋.toNat ∧
    (some (1/2) : F) ≠ some (0 : ℚ) := by
  refine ⟨?_, by norm_num [Int.toNat], by simp⟩
  norm_num [RetarderProcessor.apply_retarder, RetarderProcessor.apply_delay,
    adjust_retarder_length, RetarderProcessor.mix_retarder, enumMap, enumMapFrom,
    EnvelopeKind.factor, fdiv, fsub, fmul, fadd, fclamp1, fToUsize, Int.toNat,
    List.getElem?_cons_succ, List.getElem?_cons_zero, List.replicate]

/-- C9, amended.  `apply_delay` prepends exactly
`floor(delay_ms / 1000 * 11025)` zero samples to the ghost waveform (11025 Hz
is the fixed reference rate), and for every active retarder with repeat
factor in `(0, 1]`, every primary length ≥ 2 and every index `i` below the
prepended-zero count, the ghost contribution at `i` is zero: the output
sample is just the clamped input sample. -/
theorem C9_delay_padding :
    (∀ (rp : RetarderProcessor) (enc : List ℚ),
        rp.apply_delay enc
          = List.replicate (⌊(rp.params.delay_ms : ℚ) / 1000 * 11025⌋.toNat) 0 ++ enc) ∧
    (∀ (p : RetarderParams) (rnd : ℕ → ℚ) (enc s : List ℚ) (i : ℕ) (a : ℚ),
        0 < p.level → p.rep ≤ 1 → 2 ≤ s.length →
        i < ⌊(p.delay_ms : ℚ) / 1000 * 11025⌋.toNat → s.get? i = some a →
        ∃ out, RetarderProcessor.apply_retarder ⟨p⟩ rnd enc s = some out ∧
          out.get? i = some (fclamp1 (some a))) := by
  constructor
  · exact apply_delay_eq
  · intro p rnd enc s i a h0 hr1 hlen hiD hia
    have hne : s ≠ [] := by
      intro h
      rw [h] at hlen
      simp at hlen
    have hmix := mix_retarder_shape ⟨p⟩ rnd s
      (adjust_retarder_length ((⟨p⟩ : RetarderProcessor).apply_delay enc) s.length)
      (fun hm => by
        have h2 := le_length_adjust ((⟨p⟩ : RetarderProcessor).apply_delay enc) s.length
        have h3 : 0 < s.length := List.length_pos.mpr hm
        omega)
    rw [apply_retarder_pos ⟨p⟩ rnd enc s h0, hmix]
    refine ⟨_, rfl, ?_⟩
    rw [enumMap_get?, hia]
    have hidx_le : ⌊(i : ℚ) * p.rep⌋.toNat ≤ i := floor_mul_le_self i p.rep hr1
    have hdelay : (⟨p⟩ : RetarderProcessor).apply_delay enc
        = List.replicate (⌊(p.delay_ms : ℚ) / 1000 * 11025⌋.toNat) 0 ++ enc :=
      apply_delay_eq _ enc
    have hlen1 : ⌊(p.delay_ms : ℚ) / 1000 * 11025⌋.toNat
        ≤ ((⟨p⟩ : RetarderProcessor).apply_delay enc).length := by
      rw [hdelay]
      simp
    have hlen2 := length_le_adjust ((⟨p⟩ : RetarderProcessor).apply_delay enc) s.length
    have hidx_lt_delayed : ⌊(i : ℚ) * p.rep⌋.toNat
        < ((⟨p⟩ : RetarderProcessor).apply_delay enc).length :=
      lt_of_lt_of_le (lt_of_le_of_lt hidx_le hiD) hlen1
    have hidx_lt_adj : ⌊(i : ℚ) * p.rep⌋.toNat
        < (adjust_retarder_length ((⟨p⟩ : RetarderProcessor).apply_delay enc) s.length).length :=
      lt_of_lt_of_le hidx_lt_delayed hlen2
    have hmod : ⌊(i : ℚ) * p.rep⌋.toNat
        % (adjust_retarder_length ((⟨p⟩ : RetarderProcessor).apply_delay enc) s.length).length
        = ⌊(i : ℚ) * p.rep⌋.toNat := Nat.mod_eq_of_lt hidx_lt_adj
    have hget : (adjust_retarder_length ((⟨p⟩ : RetarderProcessor).apply_delay enc)
        s.length).get? (⌊(i : ℚ) * p.rep⌋.toNat) = some 0 := by
      rw [adjust_get?_of_lt _ _ hidx_lt_delayed, hdelay]
      exact get?_replicate_append (lt_of_le_of_lt hidx_le hiD) enc
    have hgetE : (adjust_retarder_length ((⟨p⟩ : RetarderProcessor).apply_delay enc)
        s.length)[(⌊(i : ℚ) * p.rep⌋.toNat)]? = some (0 : ℚ) := by
      rw [← List.get?_eq_getElem?]
      exact hget
    obtain ⟨e, he⟩ := factor_isSome p.env (rnd i) i s.length p.rep hlen
    simp [fToUsize, fmul, fadd, hmod, hgetE, he, fclamp1]

/-- C9, witness: with a 1 ms delay (11 prepended zeros), repeat 1 and a
2-sample zero primary, index 1 receives no ghost contribution. -/
theorem C9_delay_padding_witness :
    ∃ out, RetarderProcessor.apply_retarder ⟨⟨1, .Const, 1, 1⟩⟩ (fun _ => 0) [1/2] [0, 0]
        = some out ∧ out.get? 1 = some (fclamp1 (some 0)) :=
  C9_delay_padding.2 ⟨1, .Const, 1, 1⟩ (fun _ => 0) [1/2] [0, 0] 1 0
    (by norm_num) (by norm_num) (by norm_num) (by norm_num [Int.toNat]) rfl

/-- C10.  Identity laws: with noise level 0, `apply_noise` returns the signal
unchanged for every draw stream (no randomness is consumed), and with
retarder level ≤ 0 `apply_retarder` returns the signal unchanged for every
encode result (the encoder is never invoked). -/
theorem C10_identity :
    (∀ (np : NoiseProcessor) (z rnd : ℕ → ℚ) (s : List ℚ), np.params.level = 0 →
        np.apply_noise z rnd s = some (s.map some)) ∧
    (∀ (rp : RetarderProcessor) (rnd : ℕ → ℚ) (enc s : List ℚ), rp.params.level ≤ 0 →
        rp.apply_retarder rnd enc s = some (s.map some)) := by
  constructor
  · intro np z rnd s h
    unfold NoiseProcessor.apply_noise
    rw [if_pos h]
  · intro rp rnd enc s h
    unfold RetarderProcessor.apply_retarder
    rw [if_pos h]

/-- C10, witness: both identity laws at a concrete 2-sample signal. -/
theorem C10_identity_witness :
    NoiseProcessor.apply_noise ⟨⟨0, .Sin, 1⟩⟩ (fun _ => 0) (fun _ => 0) [1/2, -1/3]
        = some [some (1/2), some (-1/3)] ∧
    RetarderProcessor.apply_retarder ⟨⟨0, .Sin, 1, 5⟩⟩ (fun _ => 0) [9] [1/2, -1/3]
        = some [some (1/2), some (-1/3)] := by
  constructor
  · have h := C10_identity.1 ⟨⟨0, .Sin, 1⟩⟩ (fun _ => 0) (fun _ => 0) [1/2, -1/3] rfl
    simpa using h
  · have h := C10_identity.2 ⟨⟨0, .Sin, 1, 5⟩⟩ (fun _ => 0) [9] [1/2, -1/3] le_rfl
    simpa using h

end SSTV
